import Mathlib

/-!
Verification of the DPLL SAT solver in `src/main.py` against its
natural-language specification.

The program is embedded shallowly:

* a literal is an `Int` (the code does not enforce nonzero-ness);
* a clause is a `List Int`, a formula a `List (List Int)`;
* the Python `assignments` dict (literal -> bool, insertion ordered,
  queried only through membership and value lookup) is an association
  list `List (Int × Bool)`;
* the `ImplicationGraph` class becomes the `Graph` structure whose
  `vertices` and `edges` dicts are association lists and whose
  `conflict_node` field records whether the node `k` has been set;
* Python exceptions (`ValueError` in `add_edge`/`add_conflict`, the
  `TypeError` that calling the 0-argument stub `analyze_conflict` with
  two arguments would raise) are modelled with `Except String`;
* the unbounded `while` loops of `BCP` and of the main `DPLL` loop are
  modelled with explicit fuel (`Option` result, `none` = fuel ran out);
  the wrappers `BCP`/`DPLLrun` supply fuel that is proved sufficient,
  so the `none` case is unreachable.

`DPLLrun` additionally reports how many times the decision heuristic
was invoked, the final assignment mapping, and the graph after every
`BCP` call that returned `no_unit_clause`; these are pure observations
of the run and do not alter control flow.
-/

namespace SatSolver

/-- Targets of implication-graph edges: either a literal vertex or the
designated conflict node labelled `k` in the source. -/
inductive Node where
  | lit (l : Int)
  | k
deriving DecidableEq

/-- The `ImplicationGraph` class of `src/main.py`: `vertices` maps a
literal to its decision level, `edges` maps a literal to the set of
nodes it implies, `conflict_node` records whether the conflict node has
been marked. -/
structure Graph where
  vertices : List (Int × Nat)
  edges : List (Int × List Node)
  conflict_node : Bool
deriving DecidableEq

/-- The empty implication graph created at the start of `DPLL`. -/
def emptyGraph : Graph := ⟨[], [], false⟩

/-- Association-list lookup, modelling Python dict access. -/
def alookup {α : Type} : List (Int × α) → Int → Option α
  | [], _ => none
  | p :: rest, key => if p.1 = key then some p.2 else alookup rest key

/-- Python dict assignment `d[key] = v`: update in place if the key is
present, append otherwise. -/
def ainsert {α : Type} (m : List (Int × α)) (key : Int) (v : α) : List (Int × α) :=
  if (alookup m key).isSome then
    m.map (fun p => if p.1 = key then (key, v) else p)
  else
    m ++ [(key, v)]

/-- Membership of a literal in the graph's vertex dict. -/
def isVertex (g : Graph) (l : Int) : Bool := (alookup g.vertices l).isSome

/-- Python `set.add`: insert a node into an edge-target set if absent. -/
def insertNode (ns : List Node) (n : Node) : List Node :=
  if ns.contains n then ns else ns ++ [n]

/-- Add node `n` to the edge-target set of key `a` in the edge dict. -/
def addToEdges (es : List (Int × List Node)) (a : Int) (n : Node) :
    List (Int × List Node) :=
  es.map (fun p => if p.1 = a then (p.1, insertNode p.2 n) else p)

/-- The method `ImplicationGraph.add_vertex`: no-op when the literal
already has a vertex, otherwise record its decision level and an empty
edge set. -/
def add_vertex (g : Graph) (l : Int) (dl : Nat) : Graph :=
  if isVertex g l then g
  else ⟨g.vertices ++ [(l, dl)], g.edges ++ [(l, [])], g.conflict_node⟩

/-- The method `ImplicationGraph.add_edge`: raises `ValueError` when
either endpoint lacks a vertex, otherwise adds the consequent to the
antecedent's implication set. -/
def add_edge (g : Graph) (a b : Int) : Except String Graph :=
  if ¬ isVertex g a then .error "Antecedent vertex does not exist."
  else if ¬ isVertex g b then .error "Consequent vertex does not exist."
  else .ok ⟨g.vertices, addToEdges g.edges a (.lit b), g.conflict_node⟩

/-- Loop body of `ImplicationGraph.add_conflict`: for each literal of
the conflicting clause add an edge from its negation to the conflict
node, raising `ValueError` when the negation has no vertex. -/
def conflictPhase (g : Graph) : List Int → Except String Graph
  | [] => .ok g
  | l :: rest =>
    if isVertex g (-l) then
      conflictPhase ⟨g.vertices, addToEdges g.edges (-l) .k, g.conflict_node⟩ rest
    else .error "Literal does not exist."

/-- The method `ImplicationGraph.add_conflict`: mark the conflict node
`k`, then add the edges from the negations of the clause literals. -/
def add_conflict (g : Graph) (c : List Int) : Except String Graph :=
  conflictPhase ⟨g.vertices, g.edges, true⟩ c

/-- The per-clause classification loop at the top of `BCP`: collect the
literals that are not keys of `assignments` and count the literals whose
stored value is `False`. -/
def classify (A : List (Int × Bool)) (c : List Int) : List Int × Nat :=
  c.foldl
    (fun p l =>
      match alookup A l with
      | some b => if b = false then (p.1, p.2 + 1) else p
      | none => (p.1 ++ [l], p.2))
    ([], 0)

/-- Result of one scan over the clause list inside `BCP`. -/
inductive ScanRes where
  | found (c : List Int) (u : Int)
  | confl (c : List Int)
  | nothing
deriving DecidableEq

/-- One pass of the `for clause in formula` loop of `BCP`: the first
clause whose falsified count is `len - 1` with exactly one unassigned
literal is a unit clause (`found`); otherwise a clause whose falsified
count equals its length is a conflict (`confl`); if no clause triggers,
the scan found nothing. -/
def scanClauses (A : List (Int × Bool)) : List (List Int) → ScanRes
  | [] => .nothing
  | c :: rest =>
    let p := classify A c
    if p.2 + 1 = c.length ∧ p.1.length = 1 then .found c (p.1.headD 0)
    else if p.2 = c.length then .confl c
    else scanClauses A rest

/-- Edge-adding loop of the unit-clause branch of `BCP`: for every
literal of the clause other than the unit literal, lazily create the
vertex of its negation and add an edge from that negation to the unit
literal. -/
def edgePhase (g : Graph) (c : List Int) (l : Int) (dl : Nat) : Except String Graph :=
  match c with
  | [] => .ok g
  | m :: rest =>
    if m = l then edgePhase g rest l dl
    else
      let g2 := if ¬ isVertex g (-m) then add_vertex g (-m) dl else g
      match add_edge g2 (-m) l with
      | .error e => .error e
      | .ok g3 => edgePhase g3 rest l dl

/-- Graph bookkeeping of the unit-clause branch of `BCP`: add the unit
literal as a vertex at the current decision level, then run the edge
loop over the clause. -/
def unitUpdate (g : Graph) (c : List Int) (l : Int) (dl : Nat) : Except String Graph :=
  edgePhase (add_vertex g l dl) c l dl

/-- Outcome of `BCP` (the strings `"conflict"` and `"no_unit_clause"`
returned by the source). -/
inductive BCPRes where
  | conflict
  | noUnit
deriving DecidableEq

/-- The `while True` loop of `BCP`, with explicit fuel: scan the clause
list; on a unit clause assign its lone unassigned literal `True`, update
the graph, and rescan; on a conflict clause run `add_conflict` and
return `"conflict"`; when a full scan finds nothing return
`"no_unit_clause"`. -/
def BCPfuel : Nat → List (List Int) → List (Int × Bool) → Nat → Graph →
    Option (Except String (BCPRes × List (Int × Bool) × Graph))
  | 0, _, _, _, _ => none
  | fuel + 1, f, A, dl, g =>
    match scanClauses A f with
    | .found c u =>
      let A2 := ainsert A u true
      match unitUpdate g c u dl with
      | .error e => some (.error e)
      | .ok g2 => BCPfuel fuel f A2 dl g2
    | .confl c =>
      match add_conflict g c with
      | .error e => some (.error e)
      | .ok g2 => some (.ok (.conflict, A, g2))
    | .nothing => some (.ok (.noUnit, A, g))

/-- All literal occurrences of the formula, in clause order. -/
def litsOf (f : List (List Int)) : List Int := f.flatMap (fun c => c)

/-- The function `BCP` of `src/main.py`; the supplied fuel is proved
sufficient below, so the `none` case never occurs. -/
def BCP (f : List (List Int)) (A : List (Int × Bool)) (dl : Nat) (g : Graph) :
    Option (Except String (BCPRes × List (Int × Bool) × Graph)) :=
  BCPfuel ((litsOf f).length + 1) f A dl g

/-- Python dict idiom of `decide`: `map[l] = 0` on first sight followed
by `map[l] += w`, keeping insertion order. -/
def bump : List (Int × Nat) → Int → Nat → List (Int × Nat)
  | [], l, w => [(l, w)]
  | p :: rest, l, w => if p.1 = l then (p.1, p.2 + w) :: rest else p :: bump rest l w

/-- Per-literal step of the scoring loop of `decide`: skip a literal
when it or its negation is assigned, otherwise add `2 ^ len(clause)` to
its score. -/
def jwStep (A : List (Int × Bool)) (w : Nat) (m : List (Int × Nat)) (l : Int) :
    List (Int × Nat) :=
  if (alookup A l).isSome || (alookup A (-l)).isSome then m else bump m l w

/-- The `j_literal_map` built by `decide`: iterate over clauses, and
within each clause over its literals, scoring with weight
`2 ^ len(clause)`. -/
def buildJW (f : List (List Int)) (A : List (Int × Bool)) : List (Int × Nat) :=
  f.foldl (fun m c => c.foldl (jwStep A (2 ^ c.length)) m) []

/-- Python `max(map, key=map.get, default=None)`: the first key
attaining the maximum value in insertion order, `none` on an empty
dict. -/
def maxKey : List (Int × Nat) → Option Int
  | [] => none
  | p :: rest => some (rest.foldl (fun best q => if best.2 < q.2 then q else best) p).1

/-- The nested function `decide` of `src/main.py` (the implication-graph
argument is accepted and unused, as in the source). -/
def decideLit (f : List (List Int)) (A : List (Int × Bool)) (_g : Graph) : Option Int :=
  maxKey (buildJW f A)

/-- Observation record of one `DPLL` run: its returned verdict, the
number of calls to the decision heuristic, the final `assignments`
dict, and the pairs (decision level, graph) present immediately after
each `BCP` call that returned `"no_unit_clause"`. -/
structure RunOut where
  verdict : String
  decideCalls : Nat
  assignments : List (Int × Bool)
  snaps : List (Nat × Graph)
deriving DecidableEq

/-- The main `while True` loop of `DPLL`, with explicit fuel: ask the
decision heuristic (Python's `if not chosen_literal` treats both `None`
and the literal `0` as falsy and returns `"Satisfiable"`), otherwise
assign the chosen literal `True`, increment the decision level and run
`BCP`; a `"conflict"` answer reaches the call
`analyze_conflict(implication_graph, decision_level)`, which raises
`TypeError` because the stub takes no arguments. -/
def DPLLfuel : Nat → List (List Int) → List (Int × Bool) → Nat → Graph → Nat →
    List (Nat × Graph) → Option (Except String RunOut)
  | 0, _, _, _, _, _, _ => none
  | fuel + 1, f, A, dl, g, cnt, snaps =>
    match decideLit f A g with
    | none => some (.ok ⟨"Satisfiable", cnt + 1, A, snaps⟩)
    | some l =>
      if l = 0 then some (.ok ⟨"Satisfiable", cnt + 1, A, snaps⟩)
      else
        let A2 := ainsert A l true
        let dl2 := dl + 1
        match BCP f A2 dl2 g with
        | none => none
        | some (.error e) => some (.error e)
        | some (.ok (res, A3, g3)) =>
          if res = .conflict then
            some (.error "TypeError: analyze_conflict takes 0 positional arguments")
          else DPLLfuel fuel f A3 dl2 g3 (cnt + 1) (snaps ++ [(dl2, g3)])

/-- The function `DPLL` of `src/main.py`, instrumented: initialize the
empty assignment, decision level 0 and empty graph, run the initial
`BCP` (returning `"Unsatisfiable"` on conflict), then enter the main
loop. -/
def DPLLrun (f : List (List Int)) : Option (Except String RunOut) :=
  match BCP f [] 0 emptyGraph with
  | none => none
  | some (.error e) => some (.error e)
  | some (.ok (res, A, g)) =>
    if res = .conflict then some (.ok ⟨"Unsatisfiable", 0, A, []⟩)
    else DPLLfuel ((litsOf f).length + 1) f A 0 g 0 [(0, g)]

/-- The verdict of `DPLL` alone, as returned to the caller. -/
def DPLL (f : List (List Int)) : Option (Except String String) :=
  (DPLLrun f).map (fun r => r.map RunOut.verdict)

/-- Truth of a literal under an assignment mapping, in the sense of the
specification: a literal is true exactly when it is assigned `True`. -/
def litTrueB (A : List (Int × Bool)) (l : Int) : Bool :=
  match alookup A l with
  | some b => b
  | none => false

/-- A clause is satisfied when at least one of its literals is true. -/
def clauseSatB (A : List (Int × Bool)) (c : List Int) : Bool :=
  c.any (litTrueB A)

/-- Every value stored in the assignment mapping is `True`. -/
def allTrueA (A : List (Int × Bool)) : Bool := A.all (fun p => p.2)

/-- A node is an admissible edge endpoint when it is a literal vertex of
the graph. -/
def nodeOk (g : Graph) (n : Node) : Bool :=
  match n with
  | .lit m => isVertex g m
  | .k => false

/-- Graph consistency at decision level `dl`: every vertex's recorded
level is at most `dl`, and both endpoints of every edge exist as
vertices. -/
def GraphInvB (g : Graph) (dl : Nat) : Bool :=
  g.vertices.all (fun p => Nat.ble p.2 dl) &&
    g.edges.all (fun e => isVertex g e.1 && e.2.all (nodeOk g))

/-- A literal is doubly unassigned when neither it nor its negation is a
key of the assignment mapping. -/
def dUnB (A : List (Int × Bool)) (l : Int) : Bool :=
  (alookup A l).isNone && (alookup A (-l)).isNone

/-- Jeroslow-Wang score actually computed by the code: the sum of
`2 ^ len(clause)` over all occurrences of the literal, an occurrence
counted with multiplicity inside each clause. -/
def occScore (f : List (List Int)) (l : Int) : Nat :=
  (f.map (fun c => c.count l * 2 ^ c.length)).sum

/-- Modelled from the spec (claim wording): score summing
`2 ^ len(clause)` once per clause containing the literal, used to
compare the claimed scoring with the code's per-occurrence scoring. -/
def claimScoreJW (f : List (List Int)) (l : Int) : Nat :=
  ((f.filter (fun c => c.contains l)).map (fun c => 2 ^ c.length)).sum

/-- The literal is a doubly-unassigned occurring literal whose
per-occurrence Jeroslow-Wang score is maximal among all such
literals. -/
def jwOptimalB (f : List (List Int)) (A : List (Int × Bool)) (l : Int) : Bool :=
  (litsOf f).contains l && dUnB A l &&
    (litsOf f).all (fun m => !dUnB A m || Nat.ble (occScore f m) (occScore f l))

/-- Number of distinct formula literals that are not keys of the
assignment mapping; the termination measure of the `BCP` loop. -/
def unassignedCard (f : List (List Int)) (A : List (Int × Bool)) : Nat :=
  ((litsOf f).toFinset.filter (fun l => alookup A l = none)).card

/-- Number of distinct formula literals that are doubly unassigned; the
termination measure of the main `DPLL` loop. -/
def dUnCard (f : List (List Int)) (A : List (Int × Bool)) : Nat :=
  ((litsOf f).toFinset.filter
    (fun l => alookup A l = none ∧ alookup A (-l) = none)).card

/-- Scoring events processed by `decide`, flattened in traversal order:
one `(literal, 2 ^ len(clause))` pair per literal occurrence. -/
def jwEvents (f : List (List Int)) : List (Int × Nat) :=
  f.flatMap (fun c => c.map (fun l => (l, 2 ^ c.length)))

/-- Total weight of the events carrying a given literal. -/
def tally (es : List (Int × Nat)) (l : Int) : Nat :=
  (es.map (fun p => if p.1 = l then p.2 else 0)).sum

end SatSolver

namespace SatSolver

theorem alookup_mem {α : Type} {m : List (Int × α)} {k : Int} {v : α}
    (h : alookup m k = some v) : (k, v) ∈ m := by
  induction m with
  | nil => simp [alookup] at h
  | cons p rest ih =>
    rw [alookup] at h
    by_cases hk : p.1 = k
    · rw [if_pos hk] at h
      injection h with hv
      have hp : (k, v) = p := by rw [← hk, ← hv]
      rw [hp]
      exact List.mem_cons_self _ _
    · rw [if_neg hk] at h
      exact List.mem_cons_of_mem _ (ih h)

theorem alookup_append {α : Type} (m m2 : List (Int × α)) (k : Int) :
    alookup (m ++ m2) k =
      match alookup m k with
      | some v => some v
      | none => alookup m2 k := by
  induction m with
  | nil => simp [alookup]
  | cons p rest ih =>
    by_cases hk : p.1 = k
    · simp [alookup, hk]
    · simp [alookup, hk, ih]

theorem alookup_map_update_self {α : Type} (m : List (Int × α)) (k : Int) (v : α) :
    alookup (m.map (fun p => if p.1 = k then (k, v) else p)) k =
      if (alookup m k).isSome then some v else none := by
  induction m with
  | nil => simp [alookup]
  | cons p rest ih =>
    by_cases hk : p.1 = k
    · simp [alookup, hk]
    · simp [alookup, hk, ih]

theorem alookup_map_update_ne {α : Type} (m : List (Int × α)) (k k2 : Int) (v : α)
    (h : k2 ≠ k) :
    alookup (m.map (fun p => if p.1 = k then (k, v) else p)) k2 = alookup m k2 := by
  induction m with
  | nil => simp [alookup]
  | cons p rest ih =>
    by_cases hk : p.1 = k
    · have hne : k ≠ k2 := fun hc => h hc.symm
      simp [alookup, hk, hne, ih]
    · by_cases hk2 : p.1 = k2
      · simp [alookup, hk, hk2, h, ih]
      · simp [alookup, hk, hk2, ih]

theorem ainsert_lookup_self {α : Type} (m : List (Int × α)) (k : Int) (v : α) :
    alookup (ainsert m k v) k = some v := by
  unfold ainsert
  by_cases h : (alookup m k).isSome
  · simp [h, alookup_map_update_self]
  · simp only [h, if_neg, Bool.false_eq_true, not_false_iff, if_false]
    rw [alookup_append]
    rcases hm : alookup m k with _ | w
    · simp [alookup]
    · simp [hm] at h

theorem ainsert_lookup_ne {α : Type} (m : List (Int × α)) (k k2 : Int) (v : α)
    (h : k2 ≠ k) : alookup (ainsert m k v) k2 = alookup m k2 := by
  unfold ainsert
  by_cases hs : (alookup m k).isSome
  · simp [hs, alookup_map_update_ne _ _ _ _ h]
  · simp only [hs, Bool.false_eq_true, if_false]
    rw [alookup_append]
    rcases hm : alookup m k2 with _ | w
    · have h2 : ¬ k = k2 := fun hc => h hc.symm
      simp [alookup, h2]
    · simp

theorem ainsert_isSome_mono {α : Type} {m : List (Int × α)} {x : Int}
    (k : Int) (v : α) (h : (alookup m x).isSome) :
    (alookup (ainsert m k v) x).isSome := by
  by_cases hx : x = k
  · subst hx
    rw [ainsert_lookup_self]
    rfl
  · rw [ainsert_lookup_ne _ _ _ _ hx]
    exact h

theorem allTrueA_lookup {A : List (Int × Bool)} {l : Int} {b : Bool}
    (hA : allTrueA A = true) (h : alookup A l = some b) : b = true := by
  have hm := alookup_mem h
  have := (List.all_eq_true.mp hA) _ hm
  simpa using this

theorem allTrueA_ainsert {A : List (Int × Bool)} (k : Int)
    (hA : allTrueA A = true) : allTrueA (ainsert A k true) = true := by
  unfold ainsert
  by_cases hs : (alookup A k).isSome
  · simp only [hs, if_pos]
    rw [allTrueA, List.all_eq_true]
    intro p hp
    rcases List.mem_map.mp hp with ⟨q, hq, hpq⟩
    by_cases hqk : q.1 = k
    · simp only [hqk, if_pos] at hpq
      subst hpq
      rfl
    · simp only [hqk, if_neg, Bool.false_eq_true, if_false] at hpq
      subst hpq
      have := (List.all_eq_true.mp hA) _ hq
      simpa using this
  · simp only [hs, Bool.false_eq_true, if_false]
    rw [allTrueA, List.all_eq_true]
    intro p hp
    rcases List.mem_append.mp hp with hp1 | hp2
    · have := (List.all_eq_true.mp hA) _ hp1
      simpa using this
    · simp at hp2
      subst hp2
      rfl

theorem classify_fold_unassigned {A : List (Int × Bool)} (c : List Int) :
    ∀ (p : List Int × Nat) (x : Int),
      x ∈ (c.foldl (fun p l =>
        match alookup A l with
        | some b => if b = false then (p.1, p.2 + 1) else p
        | none => (p.1 ++ [l], p.2)) p).1 →
      x ∈ p.1 ∨ (x ∈ c ∧ alookup A x = none) := by
  induction c with
  | nil => intro p x hx; exact Or.inl hx
  | cons l rest ih =>
    intro p x hx
    simp only [List.foldl_cons] at hx
    rcases hl : alookup A l with _ | b
    · rw [hl] at hx
      rcases ih _ _ hx with h1 | h2
      · rcases List.mem_append.mp h1 with ha | hb
        · exact Or.inl ha
        · simp at hb
          subst hb
          exact Or.inr ⟨List.mem_cons_self _ _, hl⟩
      · exact Or.inr ⟨List.mem_cons_of_mem _ h2.1, h2.2⟩
    · rw [hl] at hx
      by_cases hb : b = false
      · simp only [hb, if_pos] at hx
        rcases ih _ _ hx with h1 | h2
        · exact Or.inl h1
        · exact Or.inr ⟨List.mem_cons_of_mem _ h2.1, h2.2⟩
      · simp only [hb, if_neg, Bool.false_eq_true, if_false] at hx
        rcases ih _ _ hx with h1 | h2
        · exact Or.inl h1
        · exact Or.inr ⟨List.mem_cons_of_mem _ h2.1, h2.2⟩

theorem classify_unassigned {A : List (Int × Bool)} {c : List Int} {x : Int}
    (hx : x ∈ (classify A c).1) : x ∈ c ∧ alookup A x = none := by
  have := classify_fold_unassigned (A := A) c ([], 0) x hx
  simpa using this

theorem classify_fold_fc_zero {A : List (Int × Bool)} (hA : allTrueA A = true)
    (c : List Int) :
    ∀ (p : List Int × Nat),
      (c.foldl (fun p l =>
        match alookup A l with
        | some b => if b = false then (p.1, p.2 + 1) else p
        | none => (p.1 ++ [l], p.2)) p).2 = p.2 := by
  induction c with
  | nil => intro p; rfl
  | cons l rest ih =>
    intro p
    simp only [List.foldl_cons]
    rcases hl : alookup A l with _ | b
    · rw [ih]
    · have hb : b = true := allTrueA_lookup hA hl
      subst hb
      simp only [Bool.true_eq_false, if_neg, if_false]
      rw [ih]

theorem classify_fc_zero {A : List (Int × Bool)} {c : List Int}
    (hA : allTrueA A = true) : (classify A c).2 = 0 :=
  classify_fold_fc_zero hA c ([], 0)

theorem scan_found {A : List (Int × Bool)} {cs : List (List Int)}
    {c : List Int} {u : Int} (h : scanClauses A cs = .found c u) :
    c ∈ cs ∧ u ∈ c ∧ alookup A u = none := by
  induction cs with
  | nil => simp [scanClauses] at h
  | cons c0 rest ih =>
    rw [scanClauses] at h
    by_cases h1 : (classify A c0).2 + 1 = c0.length ∧ (classify A c0).1.length = 1
    · rw [if_pos h1] at h
      injection h with hc hu
      rw [← hc]
      rcases hl : (classify A c0).1 with _ | ⟨u0, tl⟩
      · rw [hl] at h1
        simp at h1
      · have htl : tl = [] := by
          have h2 := h1.2
          rw [hl] at h2
          simpa using h2
        subst htl
        rw [hl] at hu
        simp only [List.headD_cons] at hu
        rw [← hu]
        have hmem : u0 ∈ (classify A c0).1 := by rw [hl]; simp
        have hcl := classify_unassigned hmem
        exact ⟨List.mem_cons_self _ _, hcl.1, hcl.2⟩
    · rw [if_neg h1] at h
      by_cases h2 : (classify A c0).2 = c0.length
      · rw [if_pos h2] at h
        cases h
      · rw [if_neg h2] at h
        have := ih h
        exact ⟨List.mem_cons_of_mem _ this.1, this.2⟩

theorem scan_confl {A : List (Int × Bool)} {cs : List (List Int)}
    {c : List Int} (h : scanClauses A cs = .confl c) :
    c ∈ cs ∧ (classify A c).2 = c.length := by
  induction cs with
  | nil => simp [scanClauses] at h
  | cons c0 rest ih =>
    rw [scanClauses] at h
    by_cases h1 : (classify A c0).2 + 1 = c0.length ∧ (classify A c0).1.length = 1
    · rw [if_pos h1] at h
      cases h
    · rw [if_neg h1] at h
      by_cases h2 : (classify A c0).2 = c0.length
      · rw [if_pos h2] at h
        injection h with hc
        subst hc
        exact ⟨List.mem_cons_self _ _, h2⟩
      · rw [if_neg h2] at h
        have := ih h
        exact ⟨List.mem_cons_of_mem _ this.1, this.2⟩

theorem scan_not_nothing {A : List (Int × Bool)} {cs : List (List Int)}
    (h : [] ∈ cs) : scanClauses A cs ≠ .nothing := by
  induction cs with
  | nil => simp at h
  | cons c0 rest ih =>
    rw [scanClauses]
    by_cases h1 : (classify A c0).2 + 1 = c0.length ∧ (classify A c0).1.length = 1
    · rw [if_pos h1]
      intro hc
      cases hc
    · rw [if_neg h1]
      by_cases h2 : (classify A c0).2 = c0.length
      · rw [if_pos h2]
        intro hc
        cases hc
      · rw [if_neg h2]
        rcases List.mem_cons.mp h with hc0 | hrest
        · rw [← hc0] at h2
          exact absurd rfl h2
        · exact ih hrest

theorem mem_litsOf {u : Int} {c : List Int} {f : List (List Int)}
    (hu : u ∈ c) (hc : c ∈ f) : u ∈ litsOf f := by
  rw [litsOf, List.mem_flatMap]
  exact ⟨c, hc, hu⟩

theorem unassignedCard_lt {f : List (List Int)} {A : List (Int × Bool)} {u : Int}
    (hu : u ∈ litsOf f) (hnone : alookup A u = none) :
    unassignedCard f (ainsert A u true) < unassignedCard f A := by
  apply Finset.card_lt_card
  have hsub : ((litsOf f).toFinset.filter
      (fun l => alookup (ainsert A u true) l = none)) ⊆
      ((litsOf f).toFinset.filter (fun l => alookup A l = none)) := by
    intro x hx
    rw [Finset.mem_filter] at hx ⊢
    refine ⟨hx.1, ?_⟩
    by_cases hxu : x = u
    · subst hxu
      have h2 := hx.2
      rw [ainsert_lookup_self] at h2
      cases h2
    · have h2 := hx.2
      rw [ainsert_lookup_ne _ _ _ _ hxu] at h2
      exact h2
  refine (Finset.ssubset_iff_of_subset hsub).mpr ⟨u, ?_, ?_⟩
  · rw [Finset.mem_filter]
    exact ⟨List.mem_toFinset.mpr hu, hnone⟩
  · intro hmem
    rw [Finset.mem_filter] at hmem
    have h2 := hmem.2
    rw [ainsert_lookup_self] at h2
    cases h2

theorem unassignedCard_le (f : List (List Int)) (A : List (Int × Bool)) :
    unassignedCard f A ≤ (litsOf f).length :=
  le_trans (Finset.card_filter_le _ _) (litsOf f).toFinset_card_le

theorem BCPfuel_isSome (f : List (List Int)) (dl : Nat) :
    ∀ (fuel : Nat) (A : List (Int × Bool)) (g : Graph),
      unassignedCard f A < fuel → (BCPfuel fuel f A dl g).isSome := by
  intro fuel
  induction fuel with
  | zero => intro A g h; exact absurd h (Nat.not_lt_zero _)
  | succ n ih =>
    intro A g h
    cases hscan : scanClauses A f with
    | found c u =>
      rcases scan_found hscan with ⟨hc, hu, hnone⟩
      cases hup : unitUpdate g c u dl with
      | error e => simp [BCPfuel, hscan, hup]
      | ok g2 =>
        simp only [BCPfuel, hscan, hup]
        apply ih
        have hlt := unassignedCard_lt (mem_litsOf hu hc) hnone
        omega
    | confl c =>
      cases hconf : add_conflict g c with
      | error e => simp [BCPfuel, hscan, hconf]
      | ok g2 => simp [BCPfuel, hscan, hconf]
    | nothing => simp [BCPfuel, hscan]

theorem BCPfuel_keys_mono (f : List (List Int)) (dl : Nat) :
    ∀ (fuel : Nat) (A : List (Int × Bool)) (g : Graph) (res : BCPRes)
      (A2 : List (Int × Bool)) (g2 : Graph),
      BCPfuel fuel f A dl g = some (.ok (res, A2, g2)) →
      ∀ m, (alookup A m).isSome → (alookup A2 m).isSome := by
  intro fuel
  induction fuel with
  | zero => intro A g res A2 g2 h; simp [BCPfuel] at h
  | succ n ih =>
    intro A g res A2 g2 h m hm
    cases hscan : scanClauses A f with
    | found c u =>
      simp only [BCPfuel, hscan] at h
      cases hup : unitUpdate g c u dl with
      | error e => rw [hup] at h; simp at h
      | ok g3 =>
        rw [hup] at h
        exact ih _ _ _ _ _ h m (ainsert_isSome_mono _ _ hm)
    | confl c =>
      simp only [BCPfuel, hscan] at h
      cases hconf : add_conflict g c with
      | error e => rw [hconf] at h; simp at h
      | ok g3 =>
        rw [hconf] at h
        simp only [Option.some.injEq, Except.ok.injEq, Prod.mk.injEq] at h
        rw [← h.2.1]
        exact hm
    | nothing =>
      simp only [BCPfuel, hscan, Option.some.injEq, Except.ok.injEq,
        Prod.mk.injEq] at h
      rw [← h.2.1]
      exact hm

theorem BCPfuel_noUnit_scan (f : List (List Int)) (dl : Nat) :
    ∀ (fuel : Nat) (A : List (Int × Bool)) (g : Graph)
      (A2 : List (Int × Bool)) (g2 : Graph),
      BCPfuel fuel f A dl g = some (.ok (.noUnit, A2, g2)) →
      scanClauses A2 f = .nothing := by
  intro fuel
  induction fuel with
  | zero => intro A g A2 g2 h; simp [BCPfuel] at h
  | succ n ih =>
    intro A g A2 g2 h
    cases hscan : scanClauses A f with
    | found c u =>
      simp only [BCPfuel, hscan] at h
      cases hup : unitUpdate g c u dl with
      | error e => rw [hup] at h; simp at h
      | ok g3 =>
        rw [hup] at h
        exact ih _ _ _ _ h
    | confl c =>
      simp only [BCPfuel, hscan] at h
      cases hconf : add_conflict g c with
      | error e => rw [hconf] at h; simp at h
      | ok g3 => rw [hconf] at h; simp at h
    | nothing =>
      simp only [BCPfuel, hscan, Option.some.injEq, Except.ok.injEq,
        Prod.mk.injEq] at h
      rw [← h.2.1]
      exact hscan

theorem isVertex_add_vertex_self (g : Graph) (l : Int) (dl : Nat) :
    isVertex (add_vertex g l dl) l = true := by
  rw [add_vertex]
  by_cases h : isVertex g l
  · rw [if_pos h]
    exact h
  · rw [if_neg h]
    rw [isVertex] at h ⊢
    simp only
    rw [alookup_append]
    rcases hm : alookup g.vertices l with _ | w
    · simp [alookup]
    · rw [hm] at h
      simp at h

theorem isVertex_add_vertex_mono {g : Graph} {x : Int}
    (h : isVertex g x = true) (l : Int) (dl : Nat) :
    isVertex (add_vertex g l dl) x = true := by
  rw [add_vertex]
  by_cases hl : isVertex g l
  · rw [if_pos hl]
    exact h
  · rw [if_neg hl]
    rw [isVertex] at h ⊢
    simp only
    rw [alookup_append]
    rcases hm : alookup g.vertices x with _ | w
    · rw [hm] at h
      simp at h
    · simp [hm]

theorem add_edge_ok_iff {g : Graph} {a b : Int} {g2 : Graph} :
    add_edge g a b = .ok g2 ↔
      isVertex g a = true ∧ isVertex g b = true ∧
        g2 = ⟨g.vertices, addToEdges g.edges a (.lit b), g.conflict_node⟩ := by
  rw [add_edge]
  by_cases ha : isVertex g a
  · by_cases hb : isVertex g b
    · simp [ha, hb, eq_comm]
    · simp [ha, hb]
  · simp [ha]

theorem edgePhase_ok (l : Int) (dl : Nat) :
    ∀ (c : List Int) (g : Graph), isVertex g l = true →
      ∃ g2, edgePhase g c l dl = .ok g2 := by
  intro c
  induction c with
  | nil => intro g _; exact ⟨g, rfl⟩
  | cons m rest ih =>
    intro g hg
    rw [edgePhase]
    by_cases hm : m = l
    · rw [if_pos hm]
      exact ih g hg
    · rw [if_neg hm]
      by_cases hv : isVertex g (-m)
      · simp only [hv, not_true, Bool.not_eq_true, if_neg, if_false]
        have hgm : isVertex g (-m) = true := hv
        rw [add_edge_ok_iff.mpr ⟨hgm, hg, rfl⟩]
        exact ih _ hg
      · simp only [hv, Bool.not_eq_true, if_pos, if_true]
        have hgm : isVertex (add_vertex g (-m) dl) (-m) = true :=
          isVertex_add_vertex_self _ _ _
        have hgl : isVertex (add_vertex g (-m) dl) l = true :=
          isVertex_add_vertex_mono hg _ _
        rw [add_edge_ok_iff.mpr ⟨hgm, hgl, rfl⟩]
        exact ih _ hgl

theorem unitUpdate_ok (g : Graph) (c : List Int) (l : Int) (dl : Nat) :
    ∃ g2, unitUpdate g c l dl = .ok g2 := by
  rw [unitUpdate]
  exact edgePhase_ok l dl c _ (isVertex_add_vertex_self g l dl)

theorem BCPfuel_allTrue (f : List (List Int)) (dl : Nat) :
    ∀ (fuel : Nat) (A : List (Int × Bool)) (g : Graph),
      allTrueA A = true → unassignedCard f A < fuel →
      ∃ res A2 g2, BCPfuel fuel f A dl g = some (.ok (res, A2, g2)) ∧
        allTrueA A2 = true ∧ (res = .conflict ↔ [] ∈ f) := by
  intro fuel
  induction fuel with
  | zero => intro A g _ h; exact absurd h (Nat.not_lt_zero _)
  | succ n ih =>
    intro A g hA hcard
    cases hscan : scanClauses A f with
    | found c u =>
      rcases scan_found hscan with ⟨hc, hu, hnone⟩
      rcases unitUpdate_ok g c u dl with ⟨g2, hup⟩
      have hA2 : allTrueA (ainsert A u true) = true := allTrueA_ainsert _ hA
      have hlt := unassignedCard_lt (mem_litsOf hu hc) hnone
      rcases ih (ainsert A u true) g2 hA2 (by omega) with
        ⟨res, A3, g3, heq, hA3, hiff⟩
      refine ⟨res, A3, g3, ?_, hA3, hiff⟩
      simp only [BCPfuel, hscan, hup]
      exact heq
    | confl c =>
      rcases scan_confl hscan with ⟨hc, hfc⟩
      have h0 : (classify A c).2 = 0 := classify_fc_zero hA
      have hcnil : c = [] := by
        rw [h0] at hfc
        exact (List.length_eq_zero.mp hfc.symm)
      subst hcnil
      refine ⟨.conflict, A, ⟨g.vertices, g.edges, true⟩, ?_, hA, ?_⟩
      · simp only [BCPfuel, hscan]
        rfl
      · exact ⟨fun _ => hc, fun _ => rfl⟩
    | nothing =>
      refine ⟨.noUnit, A, g, by simp [BCPfuel, hscan], hA, ?_⟩
      constructor
      · intro h
        exact absurd h (by decide)
      · intro hf
        exact absurd hscan (scan_not_nothing hf)

theorem litsOf_cons (c : List Int) (f : List (List Int)) :
    litsOf (c :: f) = c ++ litsOf f := by
  rw [litsOf, litsOf, List.flatMap_cons]

theorem dUn_lookups {A : List (Int × Bool)} {l : Int} (h : dUnB A l = true) :
    alookup A l = none ∧ alookup A (-l) = none := by
  rw [dUnB, Bool.and_eq_true] at h
  exact ⟨Option.isNone_iff_eq_none.mp h.1, Option.isNone_iff_eq_none.mp h.2⟩

theorem bump_mem :
    ∀ (m : List (Int × Nat)) (l : Int) (w : Nat) (p : Int × Nat),
      p ∈ bump m l w → p.1 = l ∨ p ∈ m := by
  intro m
  induction m with
  | nil =>
    intro l w p hp
    rw [bump] at hp
    simp at hp
    left
    rw [hp]
  | cons q rest ih =>
    intro l w p hp
    rw [bump] at hp
    by_cases hq : q.1 = l
    · rw [if_pos hq] at hp
      rcases List.mem_cons.mp hp with h1 | h2
      · left
        rw [h1]
        exact hq
      · right
        exact List.mem_cons_of_mem _ h2
    · rw [if_neg hq] at hp
      rcases List.mem_cons.mp hp with h1 | h2
      · right
        rw [h1]
        exact List.mem_cons_self _ _
      · rcases ih l w p h2 with ha | hb
        · exact Or.inl ha
        · exact Or.inr (List.mem_cons_of_mem _ hb)

theorem jwStep_not_assigned {A : List (Int × Bool)} {l : Int}
    (h : ¬ ((alookup A l).isSome || (alookup A (-l)).isSome) = true) :
    dUnB A l = true := by
  have h2 : ((alookup A l).isSome || (alookup A (-l)).isSome) = false :=
    eq_false_of_ne_true h
  rcases Bool.or_eq_false_iff.mp h2 with ⟨ha, hb⟩
  rw [dUnB, Bool.and_eq_true]
  constructor
  · rcases hx : alookup A l with _ | v
    · rfl
    · rw [hx] at ha
      simp at ha
  · rcases hx : alookup A (-l) with _ | v
    · rfl
    · rw [hx] at hb
      simp at hb

theorem jwfold_mem (A : List (Int × Bool)) (w : Nat) :
    ∀ (c : List Int) (m : List (Int × Nat)) (p : Int × Nat),
      p ∈ c.foldl (jwStep A w) m → p ∈ m ∨ (p.1 ∈ c ∧ dUnB A p.1 = true) := by
  intro c
  induction c with
  | nil => intro m p hp; exact Or.inl hp
  | cons l rest ih =>
    intro m p hp
    rw [List.foldl_cons] at hp
    rcases ih _ p hp with h1 | h2
    · rw [jwStep] at h1
      by_cases hass : ((alookup A l).isSome || (alookup A (-l)).isSome) = true
      · rw [if_pos hass] at h1
        exact Or.inl h1
      · rw [if_neg hass] at h1
        rcases bump_mem _ _ _ _ h1 with ha | hb
        · right
          rw [ha]
          exact ⟨List.mem_cons_self _ _, jwStep_not_assigned hass⟩
        · exact Or.inl hb
    · exact Or.inr ⟨List.mem_cons_of_mem _ h2.1, h2.2⟩

theorem buildJW_fold_mem (A : List (Int × Bool)) :
    ∀ (cs : List (List Int)) (m : List (Int × Nat)) (p : Int × Nat),
      p ∈ cs.foldl (fun m c => c.foldl (jwStep A (2 ^ c.length)) m) m →
      p ∈ m ∨ (p.1 ∈ litsOf cs ∧ dUnB A p.1 = true) := by
  intro cs
  induction cs with
  | nil => intro m p hp; exact Or.inl hp
  | cons c rest ih =>
    intro m p hp
    rw [List.foldl_cons] at hp
    rcases ih _ p hp with h1 | h2
    · rcases jwfold_mem A _ c m p h1 with ha | hb
      · exact Or.inl ha
      · exact Or.inr ⟨mem_litsOf hb.1 (List.mem_cons_self _ _), hb.2⟩
    · right
      refine ⟨?_, h2.2⟩
      rw [litsOf_cons]
      exact List.mem_append_right _ h2.1

theorem buildJW_mem {f : List (List Int)} {A : List (Int × Bool)}
    {p : Int × Nat} (hp : p ∈ buildJW f A) :
    p.1 ∈ litsOf f ∧ dUnB A p.1 = true := by
  rcases buildJW_fold_mem A f [] p hp with h1 | h2
  · simp at h1
  · exact h2

theorem foldmax_spec :
    ∀ (rest : List (Int × Nat)) (p : Int × Nat),
      (rest.foldl (fun best q => if best.2 < q.2 then q else best) p) ∈ p :: rest ∧
        p.2 ≤ (rest.foldl (fun best q => if best.2 < q.2 then q else best) p).2 ∧
        ∀ q ∈ rest, q.2 ≤ (rest.foldl (fun best q => if best.2 < q.2 then q else best) p).2 := by
  intro rest
  induction rest with
  | nil =>
    intro p
    refine ⟨List.mem_cons_self _ _, le_refl _, ?_⟩
    intro q hq
    simp at hq
  | cons q tl ih =>
    intro p
    rw [List.foldl_cons]
    by_cases h : p.2 < q.2
    · rw [if_pos h]
      rcases ih q with ⟨hmem, hle, hall⟩
      refine ⟨?_, ?_, ?_⟩
      · rcases List.mem_cons.mp hmem with h1 | h2
        · rw [h1]
          exact List.mem_cons_of_mem _ (List.mem_cons_self _ _)
        · exact List.mem_cons_of_mem _ (List.mem_cons_of_mem _ h2)
      · exact le_trans (le_of_lt h) hle
      · intro r hr
        rcases List.mem_cons.mp hr with h1 | h2
        · rw [h1]
          exact hle
        · exact hall r h2
    · rw [if_neg h]
      rcases ih p with ⟨hmem, hle, hall⟩
      refine ⟨?_, hle, ?_⟩
      · rcases List.mem_cons.mp hmem with h1 | h2
        · rw [h1]
          exact List.mem_cons_self _ _
        · exact List.mem_cons_of_mem _ (List.mem_cons_of_mem _ h2)
      · intro r hr
        rcases List.mem_cons.mp hr with h1 | h2
        · rw [h1]
          exact le_trans (Nat.le_of_not_lt h) hle
        · exact hall r h2

theorem maxKey_spec {m : List (Int × Nat)} {k : Int} (h : maxKey m = some k) :
    ∃ v, (k, v) ∈ m ∧ ∀ q ∈ m, q.2 ≤ v := by
  cases m with
  | nil => simp [maxKey] at h
  | cons p rest =>
    rw [maxKey] at h
    injection h with hk
    rcases foldmax_spec rest p with ⟨hmem, hle, hall⟩
    refine ⟨(rest.foldl (fun best q => if best.2 < q.2 then q else best) p).2, ?_, ?_⟩
    · have : (k, (rest.foldl (fun best q => if best.2 < q.2 then q else best) p).2) =
        rest.foldl (fun best q => if best.2 < q.2 then q else best) p := by
        rw [← hk]
      rw [this]
      exact hmem
    · intro q hq
      rcases List.mem_cons.mp hq with h1 | h2
      · rw [h1]
        exact hle
      · exact hall q h2

theorem decideLit_some {f : List (List Int)} {A : List (Int × Bool)}
    {g : Graph} {l : Int} (h : decideLit f A g = some l) :
    l ∈ litsOf f ∧ dUnB A l = true := by
  rw [decideLit] at h
  rcases maxKey_spec h with ⟨v, hmem, _⟩
  exact buildJW_mem hmem

theorem dUnCard_lt {f : List (List Int)} {A : List (Int × Bool)} {l : Int}
    (hl : l ∈ litsOf f) (hd : dUnB A l = true) :
    dUnCard f (ainsert A l true) < dUnCard f A := by
  rcases dUn_lookups hd with ⟨h1, h2⟩
  apply Finset.card_lt_card
  have hsub : ((litsOf f).toFinset.filter
      (fun x => alookup (ainsert A l true) x = none ∧
        alookup (ainsert A l true) (-x) = none)) ⊆
      ((litsOf f).toFinset.filter
        (fun x => alookup A x = none ∧ alookup A (-x) = none)) := by
    intro x hx
    rw [Finset.mem_filter] at hx ⊢
    refine ⟨hx.1, ?_, ?_⟩
    · by_cases hxl : x = l
      · subst hxl
        have hc := hx.2.1
        rw [ainsert_lookup_self] at hc
        cases hc
      · have hc := hx.2.1
        rw [ainsert_lookup_ne _ _ _ _ hxl] at hc
        exact hc
    · by_cases hxl : -x = l
      · have hc := hx.2.2
        rw [hxl, ainsert_lookup_self] at hc
        cases hc
      · have hc := hx.2.2
        rw [ainsert_lookup_ne _ _ _ _ hxl] at hc
        exact hc
  refine (Finset.ssubset_iff_of_subset hsub).mpr ⟨l, ?_, ?_⟩
  · rw [Finset.mem_filter]
    exact ⟨List.mem_toFinset.mpr hl, h1, h2⟩
  · intro hmem
    rw [Finset.mem_filter] at hmem
    have hc := hmem.2.1
    rw [ainsert_lookup_self] at hc
    cases hc

theorem dUnCard_mono {f : List (List Int)} {A A2 : List (Int × Bool)}
    (hmono : ∀ m, (alookup A m).isSome → (alookup A2 m).isSome) :
    dUnCard f A2 ≤ dUnCard f A := by
  apply Finset.card_le_card
  intro x hx
  rw [Finset.mem_filter] at hx ⊢
  refine ⟨hx.1, ?_, ?_⟩
  · by_contra hne
    have hs : (alookup A x).isSome := by
      rcases hy : alookup A x with _ | v
      · exact absurd hy hne
      · rfl
    have := hmono x hs
    rw [hx.2.1] at this
    cases this
  · by_contra hne
    have hs : (alookup A (-x)).isSome := by
      rcases hy : alookup A (-x) with _ | v
      · exact absurd hy hne
      · rfl
    have := hmono (-x) hs
    rw [hx.2.2] at this
    cases this

theorem dUnCard_le (f : List (List Int)) (A : List (Int × Bool)) :
    dUnCard f A ≤ (litsOf f).length :=
  le_trans (Finset.card_filter_le _ _) (litsOf f).toFinset_card_le

theorem DPLLfuel_isSome (f : List (List Int)) :
    ∀ (fuel : Nat) (A : List (Int × Bool)) (dl : Nat) (g : Graph)
      (cnt : Nat) (snaps : List (Nat × Graph)),
      dUnCard f A < fuel → (DPLLfuel fuel f A dl g cnt snaps).isSome := by
  intro fuel
  induction fuel with
  | zero => intro A dl g cnt snaps h; exact absurd h (Nat.not_lt_zero _)
  | succ n ih =>
    intro A dl g cnt snaps h
    cases hdec : decideLit f A g with
    | none => simp [DPLLfuel, hdec]
    | some l =>
      by_cases hl0 : l = 0
      · simp [DPLLfuel, hdec, hl0]
      · have hbcp : (BCP f (ainsert A l true) (dl + 1) g).isSome :=
          BCPfuel_isSome f (dl + 1) ((litsOf f).length + 1) (ainsert A l true) g
            (lt_of_le_of_lt (unassignedCard_le f _) (Nat.lt_succ_self _))
        rcases Option.isSome_iff_exists.mp hbcp with ⟨r, hr⟩
        cases r with
        | error e => simp [DPLLfuel, hdec, hl0, hr]
        | ok trip =>
          obtain ⟨res, A3, g3⟩ := trip
          by_cases hres : res = BCPRes.conflict
          · simp [DPLLfuel, hdec, hl0, hr, hres]
          · simp only [DPLLfuel, hdec, hl0, if_neg, hr, hres, Bool.false_eq_true,
              if_false]
            apply ih
            rcases decideLit_some hdec with ⟨hlf, hdun⟩
            have hlt1 : dUnCard f (ainsert A l true) < dUnCard f A :=
              dUnCard_lt hlf hdun
            have hlt2 : dUnCard f A3 ≤ dUnCard f (ainsert A l true) :=
              dUnCard_mono (BCPfuel_keys_mono f (dl + 1) _ _ _ _ _ _ hr)
            omega

theorem DPLLfuel_ok {f : List (List Int)} (hf : [] ∉ f) :
    ∀ (fuel : Nat) (A : List (Int × Bool)) (dl : Nat) (g : Graph)
      (cnt : Nat) (snaps : List (Nat × Graph)),
      allTrueA A = true → dUnCard f A < fuel →
      ∃ out, DPLLfuel fuel f A dl g cnt snaps = some (.ok out) := by
  intro fuel
  induction fuel with
  | zero => intro A dl g cnt snaps _ h; exact absurd h (Nat.not_lt_zero _)
  | succ n ih =>
    intro A dl g cnt snaps hA h
    cases hdec : decideLit f A g with
    | none =>
      exact ⟨⟨"Satisfiable", cnt + 1, A, snaps⟩, by simp [DPLLfuel, hdec]⟩
    | some l =>
      by_cases hl0 : l = 0
      · exact ⟨⟨"Satisfiable", cnt + 1, A, snaps⟩, by simp [DPLLfuel, hdec, hl0]⟩
      · rcases BCPfuel_allTrue f (dl + 1) ((litsOf f).length + 1)
          (ainsert A l true) g (allTrueA_ainsert _ hA)
          (lt_of_le_of_lt (unassignedCard_le f _) (Nat.lt_succ_self _)) with
          ⟨res, A3, g3, heq, hA3, hiff⟩
        have hres : res ≠ BCPRes.conflict := by
          intro hc
          exact hf (hiff.mp hc)
        rcases decideLit_some hdec with ⟨hlf, hdun⟩
        have hlt1 : dUnCard f (ainsert A l true) < dUnCard f A :=
          dUnCard_lt hlf hdun
        have hlt2 : dUnCard f A3 ≤ dUnCard f (ainsert A l true) :=
          dUnCard_mono (BCPfuel_keys_mono f (dl + 1) _ _ _ _ _ _ heq)
        rcases ih A3 (dl + 1) g3 (cnt + 1) (snaps ++ [(dl + 1, g3)]) hA3
          (by omega) with ⟨out, hout⟩
        refine ⟨out, ?_⟩
        simp only [DPLLfuel, hdec, hl0, Bool.false_eq_true, if_false]
        have heq2 : BCP f (ainsert A l true) (dl + 1) g =
            some (.ok (res, A3, g3)) := heq
        rw [heq2]
        simp only [hres, if_neg, Bool.false_eq_true, if_false]
        exact hout

theorem insertNode_mem {ns : List Node} {n x : Node} (h : x ∈ insertNode ns n) :
    x ∈ ns ∨ x = n := by
  rw [insertNode] at h
  by_cases hc : ns.contains n
  · rw [if_pos hc] at h
    exact Or.inl h
  · rw [if_neg hc] at h
    rcases List.mem_append.mp h with h1 | h2
    · exact Or.inl h1
    · simp at h2
      exact Or.inr h2

theorem graphInv_parts {g : Graph} {dl : Nat} :
    GraphInvB g dl = true ↔
      (∀ p ∈ g.vertices, p.2 ≤ dl) ∧
        (∀ e ∈ g.edges, isVertex g e.1 = true ∧ ∀ n ∈ e.2, nodeOk g n = true) := by
  rw [GraphInvB, Bool.and_eq_true, List.all_eq_true, List.all_eq_true]
  constructor
  · rintro ⟨h1, h2⟩
    constructor
    · intro p hp
      exact Nat.le_of_ble_eq_true (h1 p hp)
    · intro e he
      have := h2 e he
      rw [Bool.and_eq_true, List.all_eq_true] at this
      exact this
  · rintro ⟨h1, h2⟩
    constructor
    · intro p hp
      exact Nat.ble_eq_true_of_le (h1 p hp)
    · intro e he
      rw [Bool.and_eq_true, List.all_eq_true]
      exact h2 e he

theorem GraphInvB_mono_dl {g : Graph} {dl dl2 : Nat}
    (h : GraphInvB g dl = true) (hle : dl ≤ dl2) : GraphInvB g dl2 = true := by
  rw [graphInv_parts] at h ⊢
  exact ⟨fun p hp => le_trans (h.1 p hp) hle, h.2⟩

theorem isVertex_append_left {g : Graph} {x : Int}
    (vs : List (Int × Nat)) (es : List (Int × List Node)) (cn : Bool)
    (h : (alookup g.vertices x).isSome) :
    isVertex ⟨g.vertices ++ vs, es, cn⟩ x = true := by
  rw [isVertex]
  simp only
  rw [alookup_append]
  rcases hm : alookup g.vertices x with _ | w
  · rw [hm] at h
    cases h
  · rfl

theorem nodeOk_of_nodeOk {g g2 : Graph}
    (hv : ∀ x, isVertex g x = true → isVertex g2 x = true) {n : Node}
    (h : nodeOk g n = true) : nodeOk g2 n = true := by
  cases n with
  | lit m => exact hv m h
  | k => exact absurd h (by simp [nodeOk])

theorem graphInv_add_vertex {g : Graph} {dl : Nat}
    (h : GraphInvB g dl = true) (l : Int) :
    GraphInvB (add_vertex g l dl) dl = true := by
  by_cases hv : isVertex g l
  · rw [add_vertex, if_pos hv]
    exact h
  · rw [add_vertex, if_neg hv]
    rw [graphInv_parts] at h ⊢
    have hmono : ∀ x, isVertex g x = true →
        isVertex ⟨g.vertices ++ [(l, dl)], g.edges ++ [(l, [])],
          g.conflict_node⟩ x = true := by
      intro x hx
      exact isVertex_append_left _ _ _ hx
    refine ⟨?_, ?_⟩
    · intro p hp
      rcases List.mem_append.mp hp with h1 | h2
      · exact h.1 p h1
      · simp at h2
        rw [h2]
    · intro e he
      rcases List.mem_append.mp he with h1 | h2
      · rcases h.2 e h1 with ⟨hev, hen⟩
        exact ⟨hmono _ hev, fun n hn => nodeOk_of_nodeOk hmono (hen n hn)⟩
      · simp at h2
        rw [h2]
        constructor
        · rw [isVertex]
          simp only
          rw [alookup_append]
          rcases hm : alookup g.vertices l with _ | w
          · simp [alookup]
          · rw [isVertex, hm] at hv
            simp at hv
        · intro n hn
          simp at hn

theorem graphInv_add_edge {g : Graph} {a b : Int} {g2 : Graph} {dl : Nat}
    (hok : add_edge g a b = .ok g2) (h : GraphInvB g dl = true) :
    GraphInvB g2 dl = true := by
  rcases add_edge_ok_iff.mp hok with ⟨ha, hb, hg2⟩
  subst hg2
  rw [graphInv_parts] at h ⊢
  have hsame : ∀ x, isVertex ⟨g.vertices, addToEdges g.edges a (.lit b),
      g.conflict_node⟩ x = isVertex g x := by
    intro x
    rfl
  refine ⟨h.1, ?_⟩
  intro e he
  rw [addToEdges] at he
  rcases List.mem_map.mp he with ⟨e0, he0, heq⟩
  rcases h.2 e0 he0 with ⟨hev, hen⟩
  have hup : ∀ x, isVertex g x = true → isVertex ⟨g.vertices,
      addToEdges g.edges a (.lit b), g.conflict_node⟩ x = true := by
    intro x hx
    rw [hsame]
    exact hx
  by_cases hkey : e0.1 = a
  · rw [if_pos hkey] at heq
    rw [← heq]
    refine ⟨by rw [hsame]; exact hev, ?_⟩
    intro n hn
    rcases insertNode_mem hn with h1 | h2
    · exact nodeOk_of_nodeOk hup (hen n h1)
    · rw [h2]
      show isVertex _ b = true
      rw [hsame]
      exact hb
  · rw [if_neg hkey] at heq
    rw [← heq]
    exact ⟨by rw [hsame]; exact hev, fun n hn => nodeOk_of_nodeOk hup (hen n hn)⟩

theorem graphInv_edgePhase (l : Int) (dl : Nat) :
    ∀ (c : List Int) (g : Graph), isVertex g l = true → GraphInvB g dl = true →
      ∀ {g2 : Graph}, edgePhase g c l dl = .ok g2 → GraphInvB g2 dl = true := by
  intro c
  induction c with
  | nil =>
    intro g hl hg g2 hok
    rw [edgePhase] at hok
    injection hok with h
    rw [← h]
    exact hg
  | cons m rest ih =>
    intro g hl hg g2 hok
    rw [edgePhase] at hok
    by_cases hm : m = l
    · rw [if_pos hm] at hok
      exact ih g hl hg hok
    · rw [if_neg hm] at hok
      by_cases hv : isVertex g (-m)
      · simp only [hv, not_true, Bool.not_eq_true, if_neg, if_false] at hok
        cases hae : add_edge g (-m) l with
        | error e => rw [hae] at hok; cases hok
        | ok g3 =>
          rw [hae] at hok
          rcases add_edge_ok_iff.mp hae with ⟨_, _, hg3⟩
          have hl3 : isVertex g3 l = true := by
            rw [hg3]
            exact hl
          exact ih g3 hl3 (graphInv_add_edge hae hg) hok
      · simp only [hv, Bool.not_eq_true, if_pos, if_true] at hok
        cases hae : add_edge (add_vertex g (-m) dl) (-m) l with
        | error e => rw [hae] at hok; cases hok
        | ok g3 =>
          rw [hae] at hok
          have hmid : GraphInvB (add_vertex g (-m) dl) dl = true :=
            graphInv_add_vertex hg _
          have hlmid : isVertex (add_vertex g (-m) dl) l = true :=
            isVertex_add_vertex_mono hl _ _
          rcases add_edge_ok_iff.mp hae with ⟨_, _, hg3⟩
          have hl3 : isVertex g3 l = true := by
            rw [hg3]
            exact hlmid
          exact ih g3 hl3 (graphInv_add_edge hae hmid) hok

theorem graphInv_unitUpdate {g : Graph} {c : List Int} {l : Int} {dl : Nat}
    {g2 : Graph} (hok : unitUpdate g c l dl = .ok g2)
    (hg : GraphInvB g dl = true) : GraphInvB g2 dl = true := by
  rw [unitUpdate] at hok
  exact graphInv_edgePhase l dl c _ (isVertex_add_vertex_self g l dl)
    (graphInv_add_vertex hg l) hok

theorem BCPfuel_graphInv (f : List (List Int)) (dl : Nat) :
    ∀ (fuel : Nat) (A : List (Int × Bool)) (g : Graph)
      (A2 : List (Int × Bool)) (g2 : Graph),
      BCPfuel fuel f A dl g = some (.ok (.noUnit, A2, g2)) →
      GraphInvB g dl = true → GraphInvB g2 dl = true := by
  intro fuel
  induction fuel with
  | zero => intro A g A2 g2 h _; simp [BCPfuel] at h
  | succ n ih =>
    intro A g A2 g2 h hg
    cases hscan : scanClauses A f with
    | found c u =>
      simp only [BCPfuel, hscan] at h
      cases hup : unitUpdate g c u dl with
      | error e => rw [hup] at h; simp at h
      | ok g3 =>
        rw [hup] at h
        exact ih _ _ _ _ h (graphInv_unitUpdate hup hg)
    | confl c =>
      simp only [BCPfuel, hscan] at h
      cases hconf : add_conflict g c with
      | error e => rw [hconf] at h; simp at h
      | ok g3 => rw [hconf] at h; simp at h
    | nothing =>
      simp only [BCPfuel, hscan, Option.some.injEq, Except.ok.injEq,
        Prod.mk.injEq] at h
      rw [← h.2.2]
      exact hg

theorem DPLLfuel_snapsInv (f : List (List Int)) :
    ∀ (fuel : Nat) (A : List (Int × Bool)) (dl : Nat) (g : Graph) (cnt : Nat)
      (snaps : List (Nat × Graph)) (out : RunOut),
      (∀ p ∈ snaps, GraphInvB p.2 p.1 = true) → GraphInvB g dl = true →
      DPLLfuel fuel f A dl g cnt snaps = some (.ok out) →
      ∀ p ∈ out.snaps, GraphInvB p.2 p.1 = true := by
  intro fuel
  induction fuel with
  | zero => intro A dl g cnt snaps out _ _ h; simp [DPLLfuel] at h
  | succ n ih =>
    intro A dl g cnt snaps out hs hg h
    cases hdec : decideLit f A g with
    | none =>
      simp only [DPLLfuel, hdec, Option.some.injEq, Except.ok.injEq] at h
      rw [← h]
      exact hs
    | some l =>
      by_cases hl0 : l = 0
      · simp only [DPLLfuel, hdec, hl0, if_true, Option.some.injEq,
          Except.ok.injEq] at h
        rw [← h]
        exact hs
      · simp only [DPLLfuel, hdec, hl0, Bool.false_eq_true, if_false] at h
        cases hbcp : BCP f (ainsert A l true) (dl + 1) g with
        | none => rw [hbcp] at h; cases h
        | some r =>
          rw [hbcp] at h
          cases r with
          | error e => simp at h
          | ok trip =>
            obtain ⟨res, A3, g3⟩ := trip
            by_cases hres : res = BCPRes.conflict
            · simp [hres] at h
            · simp only [hres, Bool.false_eq_true, if_false] at h
              have hres2 : res = BCPRes.noUnit := by
                cases res with
                | conflict => exact absurd rfl hres
                | noUnit => rfl
              subst hres2
              have hg3 : GraphInvB g3 (dl + 1) = true :=
                BCPfuel_graphInv f (dl + 1) _ _ _ _ _ hbcp
                  (GraphInvB_mono_dl hg (Nat.le_succ _))
              refine ih _ _ _ _ _ _ ?_ hg3 h
              intro p hp
              rcases List.mem_append.mp hp with h1 | h2
              · exact hs p h1
              · simp at h2
                rw [h2]
                exact hg3

theorem jwStep_eq (A : List (Int × Bool)) (w : Nat) (m : List (Int × Nat))
    (l : Int) : jwStep A w m l = if dUnB A l = true then bump m l w else m := by
  rw [jwStep, dUnB]
  rcases h1 : alookup A l with _ | b <;> rcases h2 : alookup A (-l) with _ | b2 <;>
    simp

theorem bump_lookup_self :
    ∀ (m : List (Int × Nat)) (l : Int) (w : Nat),
      alookup (bump m l w) l = some ((alookup m l).getD 0 + w) := by
  intro m
  induction m with
  | nil => intro l w; rw [bump]; simp [alookup]
  | cons p rest ih =>
    intro l w
    rw [bump]
    by_cases hp : p.1 = l
    · simp [alookup, hp]
    · simp [alookup, hp, ih]

theorem bump_lookup_ne :
    ∀ (m : List (Int × Nat)) (l k : Int) (w : Nat), ¬ k = l →
      alookup (bump m l w) k = alookup m k := by
  intro m
  induction m with
  | nil =>
    intro l k w hk
    rw [bump]
    have h2 : ¬ l = k := fun hc => hk hc.symm
    simp [alookup, h2]
  | cons p rest ih =>
    intro l k w hk
    rw [bump]
    by_cases hp : p.1 = l
    · rw [if_pos hp]
      have h2 : ¬ p.1 = k := by
        rw [hp]
        exact fun hc => hk hc.symm
      simp [alookup, h2]
    · rw [if_neg hp]
      by_cases hpk : p.1 = k
      · simp [alookup, hpk]
      · simp [alookup, hpk, ih _ _ _ hk]

theorem alookup_none_not_mem {α : Type} :
    ∀ {m : List (Int × α)} {l : Int},
      alookup m l = none → l ∉ m.map Prod.fst := by
  intro m
  induction m with
  | nil => intro l _ h; simp at h
  | cons p rest ih =>
    intro l hl hmem
    rw [alookup] at hl
    by_cases hp : p.1 = l
    · rw [if_pos hp] at hl
      cases hl
    · rw [if_neg hp] at hl
      rw [List.map_cons] at hmem
      rcases List.mem_cons.mp hmem with h1 | h2
      · exact hp h1.symm
      · exact ih hl h2

theorem bump_keys :
    ∀ (m : List (Int × Nat)) (l : Int) (w : Nat),
      (bump m l w).map Prod.fst =
        if (alookup m l).isSome then m.map Prod.fst
        else m.map Prod.fst ++ [l] := by
  intro m
  induction m with
  | nil => intro l w; rw [bump]; simp [alookup]
  | cons p rest ih =>
    intro l w
    rw [bump]
    by_cases hp : p.1 = l
    · rw [if_pos hp]
      simp [alookup, hp]
    · rw [if_neg hp]
      have hal : alookup (p :: rest) l = alookup rest l := by
        rw [alookup, if_neg hp]
      rw [List.map_cons, ih, hal]
      by_cases hs : (alookup rest l).isSome
      · rw [if_pos hs, if_pos hs, List.map_cons]
      · rw [if_neg hs, if_neg hs, List.map_cons, List.cons_append]

theorem bump_nodupkeys {m : List (Int × Nat)} (l : Int) (w : Nat)
    (h : (m.map Prod.fst).Nodup) : ((bump m l w).map Prod.fst).Nodup := by
  rw [bump_keys]
  by_cases hs : (alookup m l).isSome
  · rw [if_pos hs]
    exact h
  · rw [if_neg hs]
    have hnone : alookup m l = none := by
      rcases hx : alookup m l with _ | v
      · rfl
      · rw [hx] at hs
        simp at hs
    have hnm : l ∉ m.map Prod.fst := alookup_none_not_mem hnone
    rw [List.nodup_append]
    refine ⟨h, List.nodup_singleton _, ?_⟩
    intro a ha hb
    simp at hb
    subst hb
    exact hnm ha

theorem jwfold_nodupkeys (A : List (Int × Bool)) :
    ∀ (es : List (Int × Nat)) (m : List (Int × Nat)),
      (m.map Prod.fst).Nodup →
      (((es.foldl (fun m p => jwStep A p.2 m p.1) m).map Prod.fst)).Nodup := by
  intro es
  induction es with
  | nil => intro m h; exact h
  | cons q es ih =>
    intro m h
    rw [List.foldl_cons]
    apply ih
    rw [jwStep_eq]
    by_cases hq : dUnB A q.1 = true
    · rw [if_pos hq]
      exact bump_nodupkeys _ _ h
    · rw [if_neg hq]
      exact h

theorem alookup_of_mem_nodup :
    ∀ {m : List (Int × Nat)} {k : Int} {v : Nat},
      (m.map Prod.fst).Nodup → (k, v) ∈ m → alookup m k = some v := by
  intro m
  induction m with
  | nil => intro k v _ h; simp at h
  | cons p rest ih =>
    intro k v hnd hm
    rw [List.map_cons, List.nodup_cons] at hnd
    rcases List.mem_cons.mp hm with h1 | h2
    · rw [← h1]
      simp [alookup]
    · have hk : ¬ p.1 = k := by
        intro hc
        apply hnd.1
        rw [hc]
        exact List.mem_map.mpr ⟨(k, v), h2, rfl⟩
      rw [alookup, if_neg hk]
      exact ih hnd.2 h2

theorem tally_cons (p : Int × Nat) (es : List (Int × Nat)) (k : Int) :
    tally (p :: es) k = (if p.1 = k then p.2 else 0) + tally es k := by
  simp [tally]

theorem tally_append (es1 es2 : List (Int × Nat)) (k : Int) :
    tally (es1 ++ es2) k = tally es1 k + tally es2 k := by
  simp [tally]

theorem tally_map_const (k : Int) (w : Nat) :
    ∀ (c : List Int), tally (c.map (fun x => (x, w))) k = c.count k * w := by
  intro c
  induction c with
  | nil => simp [tally]
  | cons x c ih =>
    rw [List.map_cons, tally_cons, ih, List.count_cons]
    by_cases hx : x = k
    · subst hx
      simp
      ring
    · simp [hx, beq_iff_eq]

theorem tally_events (k : Int) :
    ∀ (f : List (List Int)), tally (jwEvents f) k = occScore f k := by
  intro f
  induction f with
  | nil => rfl
  | cons c rest ih =>
    have h1 : tally (jwEvents (c :: rest)) k =
        tally (c.map (fun l => (l, 2 ^ c.length))) k + tally (jwEvents rest) k := by
      rw [jwEvents, List.flatMap_cons, tally_append]
      rfl
    have h2 : occScore (c :: rest) k =
        c.count k * 2 ^ c.length + occScore rest k := by
      rw [occScore, List.map_cons, List.sum_cons]
      rfl
    rw [h1, h2, tally_map_const, ih]

theorem jwEvents_exists_iff (f : List (List Int)) (k : Int) :
    (∃ p ∈ jwEvents f, p.1 = k) ↔ k ∈ litsOf f := by
  rw [jwEvents, litsOf]
  constructor
  · rintro ⟨p, hp, hpk⟩
    rcases List.mem_flatMap.mp hp with ⟨c, hc, hpc⟩
    rcases List.mem_map.mp hpc with ⟨x, hx, hxp⟩
    rw [List.mem_flatMap]
    refine ⟨c, hc, ?_⟩
    have hxk : x = k := by
      rw [← hxp] at hpk
      exact hpk
    rw [← hxk]
    exact hx
  · intro hk
    rcases List.mem_flatMap.mp hk with ⟨c, hc, hkc⟩
    exact ⟨(k, 2 ^ c.length),
      List.mem_flatMap.mpr ⟨c, hc, List.mem_map.mpr ⟨k, hkc, rfl⟩⟩, rfl⟩

theorem exists_key_cons {q : Int × Nat} {es : List (Int × Nat)} {k : Int}
    (hqk : ¬ q.1 = k) :
    (∃ p ∈ q :: es, p.1 = k) ↔ (∃ p ∈ es, p.1 = k) := by
  constructor
  · rintro ⟨p, hp, hpk⟩
    rcases List.mem_cons.mp hp with h | h
    · rw [h] at hpk
      exact absurd hpk hqk
    · exact ⟨p, h, hpk⟩
  · rintro ⟨p, hp, hpk⟩
    exact ⟨p, List.mem_cons_of_mem _ hp, hpk⟩

theorem jwfold_events (A : List (Int × Bool)) :
    ∀ (cs : List (List Int)) (m : List (Int × Nat)),
      cs.foldl (fun m c => c.foldl (jwStep A (2 ^ c.length)) m) m =
        (jwEvents cs).foldl (fun m p => jwStep A p.2 m p.1) m := by
  intro cs
  induction cs with
  | nil => intro m; rfl
  | cons c rest ih =>
    intro m
    rw [List.foldl_cons, ih]
    have hev : jwEvents (c :: rest) =
        (c.map (fun l => (l, 2 ^ c.length))) ++ jwEvents rest := by
      rw [jwEvents, jwEvents, List.flatMap_cons]
    rw [hev, List.foldl_append, List.foldl_map]

theorem jwfold_lookup (A : List (Int × Bool)) :
    ∀ (es : List (Int × Nat)) (m : List (Int × Nat)) (k : Int),
      alookup (es.foldl (fun m p => jwStep A p.2 m p.1) m) k =
        if dUnB A k = true then
          match alookup m k with
          | some v => some (v + tally es k)
          | none => if ∃ p ∈ es, p.1 = k then some (tally es k) else none
        else alookup m k := by
  intro es
  induction es with
  | nil =>
    intro m k
    simp only [List.foldl_nil]
    by_cases hd : dUnB A k = true
    · rw [if_pos hd]
      rcases hm : alookup m k with _ | v
      · simp [tally]
      · simp [tally]
    · rw [if_neg hd]
  | cons q es ih =>
    intro m k
    simp only [List.foldl_cons]
    rw [jwStep_eq]
    by_cases hq : dUnB A q.1 = true
    · rw [if_pos hq, ih (bump m q.1 q.2) k]
      by_cases hd : dUnB A k = true
      · rw [if_pos hd, if_pos hd]
        by_cases hkq : k = q.1
        · subst hkq
          rw [bump_lookup_self, tally_cons, if_pos rfl]
          rcases hm : alookup m q.1 with _ | v
          · have hex : ∃ p ∈ q :: es, p.1 = q.1 :=
              ⟨q, List.mem_cons_self _ _, rfl⟩
            rw [if_pos hex]
            simp [Nat.add_assoc]
          · simp [Nat.add_assoc]
        · rw [bump_lookup_ne _ _ _ _ hkq]
          have hqk : ¬ q.1 = k := fun hc => hkq hc.symm
          rw [tally_cons, if_neg hqk, Nat.zero_add]
          simp only [exists_key_cons hqk]
      · rw [if_neg hd, if_neg hd]
        have hkq : ¬ k = q.1 := by
          intro hc
          rw [hc] at hd
          exact hd hq
        exact bump_lookup_ne _ _ _ _ hkq
    · rw [if_neg hq, ih m k]
      by_cases hd : dUnB A k = true
      · rw [if_pos hd, if_pos hd]
        have hqk : ¬ q.1 = k := by
          intro hc
          rw [hc] at hq
          exact hq hd
        rw [tally_cons, if_neg hqk, Nat.zero_add]
        simp only [exists_key_cons hqk]
      · rw [if_neg hd, if_neg hd]

theorem buildJW_lookup (f : List (List Int)) (A : List (Int × Bool)) (k : Int) :
    alookup (buildJW f A) k =
      if dUnB A k = true then
        (if k ∈ litsOf f then some (occScore f k) else none)
      else none := by
  rw [buildJW, jwfold_events, jwfold_lookup]
  by_cases hd : dUnB A k = true
  · rw [if_pos hd, if_pos hd]
    simp only [alookup]
    by_cases he : ∃ p ∈ jwEvents f, p.1 = k
    · rw [if_pos he, if_pos ((jwEvents_exists_iff f k).mp he), tally_events]
    · rw [if_neg he, if_neg (fun hk => he ((jwEvents_exists_iff f k).mpr hk))]
  · rw [if_neg hd, if_neg hd]
    rfl

theorem buildJW_nodupkeys (f : List (List Int)) (A : List (Int × Bool)) :
    ((buildJW f A).map Prod.fst).Nodup := by
  rw [buildJW, jwfold_events]
  exact jwfold_nodupkeys A (jwEvents f) [] (by simp)

/-- C1. The specification demands that the verdict of `DPLL` equal the
true satisfiability status, with `DPLL [[1], [-1]]` and
`DPLL [[1, 2], [-1, 2], [1, -2], [-1, -2]]` both `"Unsatisfiable"`; the
code instead answers `"Satisfiable"` on both unsatisfiable inputs,
because its propagation never treats a literal as falsified. -/
theorem C1_code_eval :
    DPLL [[1], [-1]] = some (.ok "Satisfiable") ∧
      DPLL [[1, 2], [-1, 2], [1, -2], [-1, -2]] = some (.ok "Satisfiable") := by
  constructor <;> rfl

/-- C2. Soundness fails on the code: on the unsatisfiable formula
`[[1, 2], [-1, 2], [1, -2], [-1, -2]]` the run returns `"Satisfiable"`
with final assignment mapping `{1 ↦ True, 2 ↦ True}`, yet the clause
`[-1, -2]` of the formula contains no literal that is true under that
assignment. -/
theorem C2_code_eval :
    DPLLrun [[1, 2], [-1, 2], [1, -2], [-1, -2]] =
      some (.ok ⟨"Satisfiable", 3, [(1, true), (2, true)],
        [(0, emptyGraph), (1, emptyGraph), (2, emptyGraph)]⟩) ∧
      clauseSatB [(1, true), (2, true)] [-1, -2] = false ∧
      [-1, -2] ∈ [[1, 2], [-1, 2], [1, -2], [-1, -2]] := by
  refine ⟨by rfl, by rfl, by decide⟩

/-- C3. Unit-clause recognition fails on the code: in the clause
`[1, 2]` under the assignment `{-1 ↦ True}` the literal `1` is falsified
(its negation is assigned true), the literal `2` is doubly unassigned
and no literal is satisfied, so the claim demands `BCP` assign `2` and
record vertex and edge; the code instead returns `"no_unit_clause"`
leaving the assignment and the graph unchanged, because it only counts
a literal as falsified when the literal itself is stored with value
`False`, which never happens. -/
theorem C3_code_eval :
    BCP [[1, 2]] [(-1, true)] 0 emptyGraph =
      some (.ok (.noUnit, [(-1, true)], emptyGraph)) := by
  rfl

/-- C4. The at-most-one-polarity invariant fails on the code: running
`DPLL [[1], [-1]]`, the initial propagation stores both the literal `1`
and its negation `-1` with value `True` in the assignment mapping, and
both keys are still present in the final state. -/
theorem C4_code_eval :
    DPLLrun [[1], [-1]] =
      some (.ok ⟨"Satisfiable", 1, [(1, true), (-1, true)],
        [(0, ⟨[(1, 0), (-1, 0)], [(1, []), (-1, [])], false⟩)]⟩) ∧
      alookup [(1, true), (-1, true)] 1 = some true ∧
      alookup [(1, true), (-1, true)] (-1) = some true := by
  refine ⟨by rfl, by rfl, by rfl⟩

/-- C6. The claimed `InvalidLiteral` rejection does not exist in the
code: on the formula `[[0]]`, whose clause contains the literal `0`,
`DPLL` raises no error and returns the ordinary verdict
`"Satisfiable"` (it propagates `0 ↦ True` like any other literal). -/
theorem C6_code_eval :
    DPLL [[0]] = some (.ok "Satisfiable") ∧
      DPLLrun [[0]] =
        some (.ok ⟨"Satisfiable", 1, [(0, true)],
          [(0, ⟨[(0, 0)], [(0, [])], false⟩)]⟩) := by
  refine ⟨by rfl, by rfl⟩

/-- C5. Any formula containing an empty clause is answered
`"Unsatisfiable"` by the initial `BCP` call at decision level 0: the
empty clause has falsified count equal to its length, so the initial
propagation reports a conflict and `DPLL` returns before its main loop,
with the decision heuristic never invoked (the reported
`decideCalls` count is 0). -/
theorem C5_empty_clause_unsat (f : List (List Int)) (hf : [] ∈ f) :
    ∃ A g, BCP f [] 0 emptyGraph = some (.ok (.conflict, A, g)) ∧
      DPLLrun f = some (.ok ⟨"Unsatisfiable", 0, A, []⟩) := by
  rcases BCPfuel_allTrue f 0 ((litsOf f).length + 1) [] emptyGraph rfl
    (lt_of_le_of_lt (unassignedCard_le f _) (Nat.lt_succ_self _)) with
    ⟨res, A2, g2, heq, hA2, hiff⟩
  have hres : res = BCPRes.conflict := hiff.mpr hf
  subst hres
  refine ⟨A2, g2, heq, ?_⟩
  rw [DPLLrun]
  have heq2 : BCP f [] 0 emptyGraph = some (.ok (.conflict, A2, g2)) := heq
  rw [heq2]
  simp

/-- Witness for C5 at the concrete formula `[[]]`. -/
theorem C5_empty_clause_unsat_witness :
    [] ∈ ([[]] : List (List Int)) ∧
      ∃ A g, BCP [[]] [] 0 emptyGraph = some (.ok (.conflict, A, g)) ∧
        DPLLrun [[]] = some (.ok ⟨"Unsatisfiable", 0, A, []⟩) :=
  ⟨by simp, C5_empty_clause_unsat [[]] (by simp)⟩

/-- C7. During any run of `DPLL` that returns a verdict, the
implication graph observed immediately after each `BCP` call that
returned `"no_unit_clause"` is consistent: every vertex's recorded
decision level is at most the decision level current at that point, and
both endpoints of every edge are present as vertices. -/
theorem C7_graph_consistency (f : List (List Int)) (out : RunOut)
    (h : DPLLrun f = some (.ok out)) :
    ∀ p ∈ out.snaps, GraphInvB p.2 p.1 = true := by
  rw [DPLLrun] at h
  cases hbcp : BCP f [] 0 emptyGraph with
  | none => rw [hbcp] at h; cases h
  | some r =>
    rw [hbcp] at h
    cases r with
    | error e => simp at h
    | ok trip =>
      obtain ⟨res, A, g⟩ := trip
      have h2 : (if res = BCPRes.conflict then
          some (Except.ok (⟨"Unsatisfiable", 0, A, []⟩ : RunOut))
        else DPLLfuel ((litsOf f).length + 1) f A 0 g 0 [(0, g)]) =
          some (Except.ok out) := h
      by_cases hres : res = BCPRes.conflict
      · rw [hres, if_pos rfl] at h2
        have hx : (⟨"Unsatisfiable", 0, A, []⟩ : RunOut) = out := by
          injection h2 with h3
          injection h3 with h4
        intro p hp
        rw [← hx] at hp
        simp at hp
      · rw [if_neg hres] at h2
        have hres2 : res = BCPRes.noUnit := by
          cases res with
          | conflict => exact absurd rfl hres
          | noUnit => rfl
        subst hres2
        have hg : GraphInvB g 0 = true :=
          BCPfuel_graphInv f 0 _ _ _ _ _ hbcp rfl
        refine DPLLfuel_snapsInv f _ _ _ _ _ _ _ ?_ hg h2
        intro p hp
        simp at hp
        rw [hp]
        exact hg

/-- Witness for C7: the graph snapshot after the initial propagation of
`DPLL [[1], [1, 2]]` satisfies the consistency invariant at level 0. -/
theorem C7_graph_consistency_witness :
    GraphInvB ⟨[(1, 0)], [(1, [])], false⟩ 0 = true :=
  C7_graph_consistency [[1], [1, 2]]
    ⟨"Satisfiable", 2, [(1, true), (2, true)],
      [(0, ⟨[(1, 0)], [(1, [])], false⟩), (1, ⟨[(1, 0)], [(1, [])], false⟩)]⟩
    rfl (0, ⟨[(1, 0)], [(1, [])], false⟩) (by simp)

/-- C8 counterexample. A `BCP` call that returns `"no_unit_clause"`
need not leave the assignments unchanged: on the formula `[[1]]` with
initially empty assignments, `BCP` propagates the unit clause, returns
`"no_unit_clause"`, and the assignment mapping has grown from `[]` to
`{1 ↦ True}`. -/
theorem C8_cex :
    BCP [[1]] [] 0 emptyGraph =
      some (.ok (.noUnit, [(1, true)], ⟨[(1, 0)], [(1, [])], false⟩)) ∧
      ([(1, true)] : List (Int × Bool)) ≠ [] := by
  refine ⟨by rfl, by decide⟩

/-- C8 as amended. A `BCP` call returning `"no_unit_clause"` ends at a
fixpoint of its final assignments: calling `BCP` again immediately with
the resulting state returns `"no_unit_clause"` again with the
assignments (and the graph) unchanged. -/
theorem C8_fixpoint (f : List (List Int)) (A : List (Int × Bool)) (dl : Nat)
    (g : Graph) (A2 : List (Int × Bool)) (g2 : Graph)
    (h : BCP f A dl g = some (.ok (.noUnit, A2, g2))) :
    BCP f A2 dl g2 = some (.ok (.noUnit, A2, g2)) := by
  have hscan := BCPfuel_noUnit_scan f dl _ _ _ _ _ h
  rw [BCP, BCPfuel, hscan]

/-- Witness for C8 at the fixpoint reached from `BCP [[1]] [] 0`. -/
theorem C8_fixpoint_witness :
    BCP [[1]] [(1, true)] 0 ⟨[(1, 0)], [(1, [])], false⟩ =
      some (.ok (.noUnit, [(1, true)], ⟨[(1, 0)], [(1, [])], false⟩)) :=
  C8_fixpoint [[1]] [] 0 emptyGraph [(1, true)] ⟨[(1, 0)], [(1, [])], false⟩ rfl

/-- C10. Under the run invariant that every stored assignment value is
`True`, `BCP` reports `"conflict"` exactly when the formula contains an
empty clause (the falsified count of a nonempty clause is always 0);
consequently every `DPLL` run ends in an ordinary `Except.ok` verdict:
the conflict branch of the main loop, whose `analyze_conflict` and
`backtrack` stub calls would raise, is never executed. -/
theorem C10_no_conflict_no_exception (f : List (List Int)) :
    (∀ (A : List (Int × Bool)) (dl : Nat) (g : Graph), allTrueA A = true →
      ((∃ A2 g2, BCP f A dl g = some (.ok (.conflict, A2, g2))) ↔ [] ∈ f)) ∧
    (∃ out, DPLLrun f = some (.ok out)) := by
  constructor
  · intro A dl g hA
    constructor
    · rintro ⟨A2, g2, heq⟩
      rcases BCPfuel_allTrue f dl ((litsOf f).length + 1) A g hA
        (lt_of_le_of_lt (unassignedCard_le f _) (Nat.lt_succ_self _)) with
        ⟨res, A3, g3, heq2, _, hiff⟩
      have heq3 : BCP f A dl g = some (.ok (res, A3, g3)) := heq2
      rw [heq] at heq3
      simp only [Option.some.injEq, Except.ok.injEq, Prod.mk.injEq] at heq3
      exact hiff.mp heq3.1.symm
    · intro hf
      rcases BCPfuel_allTrue f dl ((litsOf f).length + 1) A g hA
        (lt_of_le_of_lt (unassignedCard_le f _) (Nat.lt_succ_self _)) with
        ⟨res, A3, g3, heq2, _, hiff⟩
      have hres : res = BCPRes.conflict := hiff.mpr hf
      subst hres
      exact ⟨A3, g3, heq2⟩
  · by_cases hf : [] ∈ f
    · rcases BCPfuel_allTrue f 0 ((litsOf f).length + 1) [] emptyGraph rfl
        (lt_of_le_of_lt (unassignedCard_le f _) (Nat.lt_succ_self _)) with
        ⟨res, A2, g2, heq, _, hiff⟩
      have hres : res = BCPRes.conflict := hiff.mpr hf
      subst hres
      refine ⟨⟨"Unsatisfiable", 0, A2, []⟩, ?_⟩
      rw [DPLLrun]
      have heq2 : BCP f [] 0 emptyGraph = some (.ok (.conflict, A2, g2)) := heq
      rw [heq2]
      simp
    · rcases BCPfuel_allTrue f 0 ((litsOf f).length + 1) [] emptyGraph rfl
        (lt_of_le_of_lt (unassignedCard_le f _) (Nat.lt_succ_self _)) with
        ⟨res, A2, g2, heq, hA2, hiff⟩
      have hres : res = BCPRes.noUnit := by
        cases res with
        | conflict => exact absurd (hiff.mp rfl) hf
        | noUnit => rfl
      subst hres
      rcases DPLLfuel_ok hf ((litsOf f).length + 1) A2 0 g2 0 [(0, g2)] hA2
        (lt_of_le_of_lt (dUnCard_le f _) (Nat.lt_succ_self _)) with ⟨out, hout⟩
      refine ⟨out, ?_⟩
      rw [DPLLrun]
      have heq2 : BCP f [] 0 emptyGraph = some (.ok (.noUnit, A2, g2)) := heq
      rw [heq2]
      simpa using hout

/-- Witness for C10 at the concrete formula `[[], [1]]`. -/
theorem C10_no_conflict_no_exception_witness :
    ((∃ A2 g2, BCP [[], [1]] [] 0 emptyGraph =
        some (.ok (.conflict, A2, g2))) ↔ [] ∈ [[], ([1] : List Int)]) ∧
      ∃ out, DPLLrun [[], [1]] = some (.ok out) :=
  ⟨(C10_no_conflict_no_exception [[], [1]]).1 [] 0 emptyGraph rfl,
    (C10_no_conflict_no_exception [[], [1]]).2⟩

/-- C9 counterexample. The returned literal does not always attain the
maximum of the claimed per-clause score: on `[[1, 1], [2, 3, 4]]` with
nothing assigned, `decide` returns `1`, whose claimed score (summing
`2 ^ len(clause)` once per clause containing the literal) is `4`, while
the unassigned literal `2` has claimed score `8`; the code scores per
occurrence, giving `1` the score `8` and selecting it first. -/
theorem C9_cex :
    decideLit [[1, 1], [2, 3, 4]] [] emptyGraph = some 1 ∧
      claimScoreJW [[1, 1], [2, 3, 4]] 1 = 4 ∧
      claimScoreJW [[1, 1], [2, 3, 4]] 2 = 8 ∧
      dUnB [] 2 = true ∧
      occScore [[1, 1], [2, 3, 4]] 1 = 8 := by
  refine ⟨by rfl, by rfl, by rfl, by rfl, by rfl⟩

/-- C9 as amended. For every formula and assignment state, `decide`
scores each doubly-unassigned literal occurring in the formula by
summing `2 ^ len(clause)` over its occurrences (an occurrence inside a
clause counted with multiplicity), and returns a literal attaining the
maximum such score; when the formula contains no doubly-unassigned
literal it returns the sentinel `None`. -/
theorem C9_jw_scoring (f : List (List Int)) (A : List (Int × Bool)) (g : Graph) :
    ((litsOf f).all (fun l => !dUnB A l) = true → decideLit f A g = none) ∧
    (∀ l, decideLit f A g = some l → jwOptimalB f A l = true) := by
  constructor
  · intro hall
    rcases hb : buildJW f A with _ | ⟨p, rest⟩
    · rw [decideLit, hb]
      rfl
    · exfalso
      have hp : p ∈ buildJW f A := by
        rw [hb]
        exact List.mem_cons_self _ _
      rcases buildJW_mem hp with ⟨hlf, hdun⟩
      have hneg := List.all_eq_true.mp hall p.1 hlf
      rw [hdun] at hneg
      cases hneg
  · intro l hl
    rw [decideLit] at hl
    rcases maxKey_spec hl with ⟨v, hmem, hmax⟩
    rcases buildJW_mem hmem with ⟨hlf, hdun⟩
    have hv : v = occScore f l := by
      have hlk := alookup_of_mem_nodup (buildJW_nodupkeys f A) hmem
      rw [buildJW_lookup, if_pos hdun, if_pos hlf] at hlk
      injection hlk with h2
      exact h2.symm
    rw [jwOptimalB, Bool.and_eq_true, Bool.and_eq_true]
    refine ⟨⟨?_, hdun⟩, ?_⟩
    · exact List.elem_eq_true_of_mem hlf
    · rw [List.all_eq_true]
      intro m hm
      by_cases hdm : dUnB A m = true
      · have hlkm : alookup (buildJW f A) m = some (occScore f m) := by
          rw [buildJW_lookup, if_pos hdm, if_pos hm]
        have hmm : (m, occScore f m) ∈ buildJW f A := alookup_mem hlkm
        have hle := hmax _ hmm
        rw [hv] at hle
        rw [Bool.or_eq_true]
        exact Or.inr (Nat.ble_eq_true_of_le hle)
      · rw [Bool.or_eq_true]
        left
        rw [eq_false_of_ne_true hdm]
        rfl

/-- Witness for C9 on the formula `[[1, 2]]` with nothing assigned
(where `decide` returns `1`), and on `[[1]]` with `1` assigned (where
it returns the sentinel). -/
theorem C9_jw_scoring_witness :
    jwOptimalB [[1, 2]] [] 1 = true ∧
      decideLit [[1]] [(1, true)] emptyGraph = none :=
  ⟨(C9_jw_scoring [[1, 2]] [] emptyGraph).2 1 rfl,
    (C9_jw_scoring [[1]] [(1, true)] emptyGraph).1 (by decide)⟩

end SatSolver
